import Mathlib

/-!
Shallow embedding of the query-normalization, label-aggregation and
multi-strategy ranking code of `preprocess.py` and `spell_evaluation.py`
(avrae-search-nn).  Strings are modelled as `List Char`, Python floats as
`ℚ`, dicts as association lists or explicit lookup functions, and fallible
operations (list indexing, dict `[]` lookup) as `Option`/`Except`.
-/

namespace AvraeSearch

/-- Allowed alphabet, `MAGIC_1 = "abcdefghijklmnopqrstuvwxyz '"` in
`preprocess.py`. -/
def MAGIC_1 : List Char := "abcdefghijklmnopqrstuvwxyz '".toList

/-- Alternative keyboard-order alphabet, `MAGIC_2` in `preprocess.py`. -/
def MAGIC_2 : List Char := "qwertyuiopasdfghjkl'zxcvbnm ".toList

/-- Fixed encoded width, `INPUT_LENGTH = 16` in `preprocess.py`. -/
def INPUT_LENGTH : ℕ := 16

/-- Python `str.strip()`: remove leading and trailing whitespace.  Modelled
by stripping the trailing whitespace via a double reversal and then the
leading whitespace. -/
def pyStrip (l : List Char) : List Char :=
  ((l.reverse.dropWhile Char.isWhitespace).reverse).dropWhile Char.isWhitespace

/-- `clean` from `preprocess.py`: lower-case, keep only characters of
`MAGIC_1`, truncate to `INPUT_LENGTH`, strip. -/
def clean (query : List Char) : List Char :=
  let filtered := query.map Char.toLower
  let filtered2 := filtered.filter (fun c => decide (c ∈ MAGIC_1))
  pyStrip (filtered2.take INPUT_LENGTH)

theorem head?_dropWhile {p : α → Bool} :
    ∀ {l : List α} {c : α}, (l.dropWhile p).head? = some c → p c = false := by
  intro l
  induction l with
  | nil => intro c h; simp [List.dropWhile] at h
  | cons a t ih =>
    intro c h
    rw [List.dropWhile_cons] at h
    by_cases hp : p a
    · simp [hp] at h; exact ih h
    · simp [hp] at h
      subst h
      simpa [Bool.not_eq_true] using hp

theorem getLast?_suffix {l₁ l₂ : List α} (h : l₁ <:+ l₂) {c : α}
    (hc : l₁.getLast? = some c) : l₂.getLast? = some c := by
  obtain ⟨t, rfl⟩ := h
  rw [List.getLast?_append]
  simp [hc]

theorem pyStrip_length_le (l : List Char) : (pyStrip l).length ≤ l.length := by
  unfold pyStrip
  calc (((l.reverse.dropWhile Char.isWhitespace).reverse).dropWhile
          Char.isWhitespace).length
      ≤ ((l.reverse.dropWhile Char.isWhitespace).reverse).length :=
        (List.dropWhile_sublist _).length_le
    _ = (l.reverse.dropWhile Char.isWhitespace).length := by simp
    _ ≤ l.reverse.length := (List.dropWhile_sublist _).length_le
    _ = l.length := by simp

theorem pyStrip_subset (l : List Char) : ∀ c ∈ pyStrip l, c ∈ l := by
  intro c hc
  unfold pyStrip at hc
  have h1 := (List.dropWhile_sublist (l := (l.reverse.dropWhile Char.isWhitespace).reverse)
    Char.isWhitespace).subset hc
  rw [List.mem_reverse] at h1
  have h2 := (List.dropWhile_sublist (l := l.reverse) Char.isWhitespace).subset h1
  rwa [List.mem_reverse] at h2

theorem pyStrip_head? {l : List Char} {c : Char}
    (h : (pyStrip l).head? = some c) : c.isWhitespace = false :=
  head?_dropWhile h

theorem pyStrip_getLast? {l : List Char} {c : Char}
    (h : (pyStrip l).getLast? = some c) : c.isWhitespace = false := by
  unfold pyStrip at h
  have hsuf := List.dropWhile_suffix (l := (l.reverse.dropWhile Char.isWhitespace).reverse)
    Char.isWhitespace
  have h2 : ((l.reverse.dropWhile Char.isWhitespace).reverse).getLast? = some c :=
    getLast?_suffix hsuf h
  rw [List.getLast?_reverse] at h2
  exact head?_dropWhile h2

/-- C6: `clean` is total; its output has length at most `INPUT_LENGTH = 16`,
every output character lies in the allowed alphabet `MAGIC_1` (lowercase
letters, apostrophe, space), the output has no leading or trailing
whitespace, and the empty string is a valid output. -/
theorem clean_canonicalizes (q : List Char) :
    (clean q).length ≤ INPUT_LENGTH ∧
    (∀ c ∈ clean q, c ∈ MAGIC_1) ∧
    (∀ c, (clean q).head? = some c → c.isWhitespace = false) ∧
    (∀ c, (clean q).getLast? = some c → c.isWhitespace = false) ∧
    clean [] = [] := by
  refine ⟨?_, ?_, ?_, ?_, rfl⟩
  · calc (clean q).length
        ≤ (((q.map Char.toLower).filter (fun c => decide (c ∈ MAGIC_1))).take
            INPUT_LENGTH).length := pyStrip_length_le _
      _ ≤ INPUT_LENGTH := by simp
  · intro c hc
    have h1 := pyStrip_subset _ _ hc
    have h2 := List.mem_of_mem_take h1
    have h3 := List.of_mem_filter h2
    simpa using h3
  · intro c hc
    exact pyStrip_head? hc
  · intro c hc
    exact pyStrip_getLast? hc

/-- Witness for C6 at the concrete input " ab ": the stripped head is a
non-whitespace character. -/
theorem clean_canonicalizes_witness :
    ((clean " ab ".toList).head? = some 'a') ∧ ('a').isWhitespace = false :=
  ⟨by decide, (clean_canonicalizes " ab ".toList).2.2.1 'a' (by decide)⟩

/-- `tokenize` from `preprocess.py`: allocate a zero vector of width
`INPUT_LENGTH` and write `index(char)+1` (INDEX mode, `use_index=True`) or
`(index(char)+1)/num_chars` (DENSE mode) at each query position.  Python
raises for a query longer than `INPUT_LENGTH` or a character outside
`magic_string`; the claims only concern inputs where neither occurs. -/
def tokenize (query : List Char) (magic_string : List Char) (use_index : Bool) : List ℚ :=
  let num_chars : ℚ := magic_string.length
  if use_index then
    query.enum.foldl (fun acc p => acc.set p.1 ((magic_string.indexOf p.2 : ℚ) + 1))
      (List.replicate INPUT_LENGTH 0)
  else
    query.enum.foldl (fun acc p => acc.set p.1 (((magic_string.indexOf p.2 : ℚ) + 1) / num_chars))
      (List.replicate INPUT_LENGTH 0)

theorem foldl_set_enumFrom_getElem? (f : Char → ℚ) :
    ∀ (q : List Char) (k : ℕ) (acc : List ℚ), k + q.length ≤ acc.length →
    ∀ j, ((q.enumFrom k).foldl (fun a p => a.set p.1 (f p.2)) acc)[j]? =
      if k ≤ j ∧ j < k + q.length then (q[j - k]?).map f else acc[j]? := by
  intro q
  induction q with
  | nil =>
    intro k acc _ j
    simp only [List.enumFrom_nil, List.foldl_nil, List.length_nil, Nat.add_zero]
    have hng : ¬ (k ≤ j ∧ j < k) := by omega
    rw [if_neg hng]
  | cons c t ih =>
    intro k acc hlen j
    rw [List.enumFrom_cons]
    have hlen' : (k + 1) + t.length ≤ (acc.set k (f c)).length := by
      simp only [List.length_set]
      simp at hlen; omega
    have hk : k < acc.length := by simp at hlen; omega
    simp only [List.foldl_cons]
    rw [ih (k + 1) (acc.set k (f c)) hlen' j]
    by_cases h1 : (k + 1) ≤ j ∧ j < (k + 1) + t.length
    · have h2 : k ≤ j ∧ j < k + (c :: t).length := by simp; omega
      rw [if_pos h1, if_pos h2]
      have : j - k = (j - (k + 1)) + 1 := by omega
      rw [this, List.getElem?_cons_succ]
    · by_cases h3 : j = k
      · subst h3
        have h2 : j ≤ j ∧ j < j + (c :: t).length := by simp
        rw [if_neg h1, if_pos h2]
        rw [List.getElem?_set_self hk]
        simp
      · have h2 : ¬ (k ≤ j ∧ j < k + (c :: t).length) := by
          simp only [List.length_cons]
          omega
        rw [if_neg h1, if_neg h2]
        exact List.getElem?_set_ne (by omega)

theorem tokenize_index_getElem? (q magic_string : List Char)
    (h : q.length ≤ INPUT_LENGTH) (j : ℕ) :
    (tokenize q magic_string true)[j]? =
      if j < q.length then (q[j]?).map (fun c => ((magic_string.indexOf c : ℚ) + 1))
      else (List.replicate INPUT_LENGTH (0 : ℚ))[j]? := by
  have hdef : tokenize q magic_string true =
      (q.enumFrom 0).foldl (fun acc p => acc.set p.1 ((magic_string.indexOf p.2 : ℚ) + 1))
        (List.replicate INPUT_LENGTH 0) := rfl
  rw [hdef]
  rw [foldl_set_enumFrom_getElem? (fun c => ((magic_string.indexOf c : ℚ) + 1)) q 0
    (List.replicate INPUT_LENGTH 0) (by simpa using h) j]
  simp only [Nat.zero_add, Nat.zero_le, true_and, Nat.sub_zero]

/-- C9: INDEX-mode encoding is deterministic (it is a function of its
arguments), and for two normalized strings of equal length at most
`INPUT_LENGTH` over a duplicate-free alphabet containing every character of
both, the encodings differ at some position iff the strings differ. -/
theorem tokenize_index_injective (q1 q2 magic_string : List Char)
    (hlen : q1.length = q2.length) (hle : q1.length ≤ INPUT_LENGTH)
    (hnd : magic_string.Nodup)
    (h1 : ∀ c ∈ q1, c ∈ magic_string) (h2 : ∀ c ∈ q2, c ∈ magic_string) :
    (∃ i : ℕ, (tokenize q1 magic_string true)[i]? ≠ (tokenize q2 magic_string true)[i]?) ↔
      q1 ≠ q2 := by
  constructor
  · rintro ⟨i, hi⟩ rfl
    exact hi rfl
  · intro hne
    have hdiff : ¬ (∀ i, q1[i]? = q2[i]?) := fun hall => hne (List.ext_getElem? hall)
    push_neg at hdiff
    obtain ⟨i, hi⟩ := hdiff
    refine ⟨i, ?_⟩
    rw [tokenize_index_getElem? q1 magic_string hle i,
      tokenize_index_getElem? q2 magic_string (by omega) i]
    by_cases hlt : i < q1.length
    · have hlt2 : i < q2.length := by omega
      rw [if_pos hlt, if_pos hlt2]
      have hc1 : q1[i]? = some q1[i] := List.getElem?_eq_getElem hlt
      have hc2 : q2[i]? = some q2[i] := List.getElem?_eq_getElem hlt2
      rw [hc1, hc2]
      simp only [Option.map_some']
      intro hcontra
      have hq : ((magic_string.indexOf q1[i] : ℚ) + 1) = (magic_string.indexOf q2[i] : ℚ) + 1 :=
        Option.some.inj hcontra
      have hcast : ((magic_string.indexOf q1[i] : ℚ)) = (magic_string.indexOf q2[i] : ℚ) := by
        linarith
      have hidx : magic_string.indexOf q1[i] = magic_string.indexOf q2[i] := by
        exact_mod_cast hcast
      have hmem1 : q1[i] ∈ q1 := List.getElem_mem hlt
      have hmem2 : q2[i] ∈ q2 := List.getElem_mem hlt2
      have hceq : q1[i] = q2[i] := (List.indexOf_inj (h1 _ hmem1) (h2 _ hmem2)).mp hidx
      exact hi (by rw [hc1, hc2, hceq])
    · exfalso
      have e1 : q1[i]? = none := List.getElem?_eq_none (by omega)
      have e2 : q2[i]? = none := List.getElem?_eq_none (by omega)
      exact hi (e1.trans e2.symm)

/-- Witness for C9 at the concrete strings "ab" and "ba" over `MAGIC_1`. -/
theorem tokenize_index_injective_witness :
    ("ab".toList.length = "ba".toList.length ∧ "ab".toList.length ≤ INPUT_LENGTH ∧
      MAGIC_1.Nodup ∧ (∀ c ∈ "ab".toList, c ∈ MAGIC_1) ∧ (∀ c ∈ "ba".toList, c ∈ MAGIC_1)) ∧
    ((∃ i : ℕ, (tokenize "ab".toList MAGIC_1 true)[i]? ≠ (tokenize "ba".toList MAGIC_1 true)[i]?) ↔
      "ab".toList ≠ "ba".toList) :=
  ⟨by decide, tokenize_index_injective "ab".toList "ba".toList MAGIC_1
    (by decide) (by decide) (by decide) (by decide) (by decide)⟩

/-- `generate_y_vector` from `preprocess.py`: allocate a zero vector of
length `num_results`, write each id's count at its position, then divide
every entry by the vector's sum.  The per-query distribution (a Python
dict) is modelled as an association list whose ids are pairwise distinct. -/
def generate_y_vector (results : List (ℕ × ℕ)) (num_results : ℕ) : List ℚ :=
  let vec := results.foldl (fun v p => v.set p.1 (p.2 : ℚ)) (List.replicate num_results (0 : ℚ))
  let vec_sum := vec.sum
  vec.map (fun x => x / vec_sum)

theorem foldl_set_length (l : List (ℕ × ℕ)) :
    ∀ init : List ℚ,
      (l.foldl (fun v p => v.set p.1 (p.2 : ℚ)) init).length = init.length := by
  induction l with
  | nil => intro init; rfl
  | cons a t ih =>
    intro init
    simp only [List.foldl_cons]
    rw [ih (init.set a.1 (a.2 : ℚ))]
    simp

theorem foldl_set_getElem?_of_not_mem (l : List (ℕ × ℕ)) :
    ∀ (init : List ℚ) (j : ℕ), j ∉ l.map Prod.fst →
      (l.foldl (fun v p => v.set p.1 (p.2 : ℚ)) init)[j]? = init[j]? := by
  induction l with
  | nil => intro init j _; rfl
  | cons a t ih =>
    intro init j hj
    simp only [List.map_cons, List.mem_cons] at hj
    push_neg at hj
    simp only [List.foldl_cons]
    rw [ih (init.set a.1 (a.2 : ℚ)) j hj.2]
    exact List.getElem?_set_ne (fun h => hj.1 h.symm)

theorem foldl_set_getElem?_of_mem (l : List (ℕ × ℕ)) :
    ∀ (init : List ℚ) (p : ℕ × ℕ), (l.map Prod.fst).Nodup → p ∈ l →
      p.1 < init.length →
      (l.foldl (fun v p => v.set p.1 (p.2 : ℚ)) init)[p.1]? = some (p.2 : ℚ) := by
  induction l with
  | nil => intro init p _ hp; exact absurd hp (List.not_mem_nil p)
  | cons a t ih =>
    intro init p hnd hp hlt
    simp only [List.map_cons, List.nodup_cons] at hnd
    simp only [List.foldl_cons]
    rcases List.mem_cons.mp hp with rfl | hpt
    · rw [foldl_set_getElem?_of_not_mem t (init.set p.1 (p.2 : ℚ)) p.1 hnd.1]
      exact List.getElem?_set_self hlt
    · exact ih (init.set a.1 (a.2 : ℚ)) p hnd.2 hpt (by simpa using hlt)

theorem sum_set_of_getElem?_zero (L : List ℚ) (n : ℕ) (x : ℚ)
    (h : L[n]? = some 0) : (L.set n x).sum = L.sum + x := by
  have hn : n < L.length := by
    by_contra hn
    rw [List.getElem?_eq_none (by omega)] at h
    exact Option.noConfusion h
  have h0 : L[n] = 0 := by
    rw [List.getElem?_eq_getElem hn] at h
    exact Option.some.inj h
  rw [List.sum_set]
  conv_rhs => rw [← List.take_append_drop n L]
  rw [List.sum_append, List.drop_eq_getElem_cons hn, List.sum_cons, h0, if_pos hn]
  ring

theorem foldl_set_sum (l : List (ℕ × ℕ)) :
    ∀ init : List ℚ, (l.map Prod.fst).Nodup →
      (∀ p ∈ l, init[p.1]? = some 0) →
      (l.foldl (fun v p => v.set p.1 (p.2 : ℚ)) init).sum =
        init.sum + (l.map (fun p => (p.2 : ℚ))).sum := by
  induction l with
  | nil => intro init _ _; simp
  | cons a t ih =>
    intro init hnd hzero
    simp only [List.map_cons, List.nodup_cons] at hnd
    simp only [List.foldl_cons, List.map_cons, List.sum_cons]
    rw [ih (init.set a.1 (a.2 : ℚ)) hnd.2 ?_]
    · rw [sum_set_of_getElem?_zero init a.1 (a.2 : ℚ) (hzero a (List.mem_cons_self a t))]
      ring
    · intro p hp
      rw [List.getElem?_set_ne ?_]
      · exact hzero p (List.mem_cons_of_mem a hp)
      · intro hcontra
        exact hnd.1 (hcontra ▸ List.mem_map_of_mem Prod.fst hp)

theorem sum_map_div (l : List ℚ) (c : ℚ) :
    (l.map (fun x => x / c)).sum = l.sum / c := by
  induction l with
  | nil => simp
  | cons a t ih => simp [ih, add_div]

/-- C5: for a non-empty distribution of positive counts over pairwise
distinct ids below `num_results`, `generate_y_vector` returns a vector of
length `num_results` holding `count/total` at each observed id and `0`
elsewhere, and its entries sum to exactly `1` (hence to `1.0` within
`1e-6`). -/
theorem generate_y_vector_normalizes (results : List (ℕ × ℕ)) (num_results : ℕ)
    (hne : results ≠ [])
    (hnd : (results.map Prod.fst).Nodup)
    (hlt : ∀ p ∈ results, p.1 < num_results)
    (hpos : ∀ p ∈ results, 0 < p.2) :
    (generate_y_vector results num_results).length = num_results ∧
    (∀ p ∈ results, (generate_y_vector results num_results)[p.1]? =
      some ((p.2 : ℚ) / (results.map (fun q => (q.2 : ℚ))).sum)) ∧
    (∀ j, j < num_results → j ∉ results.map Prod.fst →
      (generate_y_vector results num_results)[j]? = some 0) ∧
    (generate_y_vector results num_results).sum = 1 ∧
    |(generate_y_vector results num_results).sum - 1| ≤ 1 / 1000000 := by
  have hzero : ∀ p ∈ results, (List.replicate num_results (0 : ℚ))[p.1]? = some 0 := by
    intro p hp
    exact List.getElem?_replicate_of_lt (hlt p hp)
  have hS : (results.map (fun q => (q.2 : ℚ))).sum > 0 := by
    apply List.sum_pos
    · intro x hx
      obtain ⟨p, hp, rfl⟩ := List.mem_map.mp hx
      exact_mod_cast hpos p hp
    · simpa using hne
  set vec := results.foldl (fun v p => v.set p.1 (p.2 : ℚ))
    (List.replicate num_results (0 : ℚ)) with hvec
  have hsum : vec.sum = (results.map (fun p => (p.2 : ℚ))).sum := by
    rw [hvec, foldl_set_sum results _ hnd hzero]
    simp
  have hgdef : generate_y_vector results num_results = vec.map (fun x => x / vec.sum) := rfl
  refine ⟨?_, ?_, ?_, ?_, ?_⟩
  · rw [hgdef]
    simp only [List.length_map]
    rw [hvec, foldl_set_length]
    simp
  · intro p hp
    rw [hgdef, List.getElem?_map, hvec,
      foldl_set_getElem?_of_mem results _ p hnd hp (by simpa using hlt p hp)]
    simp [← hvec, hsum]
  · intro j hj hjmem
    rw [hgdef, List.getElem?_map, hvec, foldl_set_getElem?_of_not_mem results _ j hjmem]
    rw [List.getElem?_replicate_of_lt hj]
    simp
  · rw [hgdef, sum_map_div, hsum]
    exact div_self (ne_of_gt hS)
  · rw [hgdef, sum_map_div, hsum, div_self (ne_of_gt hS)]
    norm_num

/-- Witness for C5 at the distribution `[(0, 2), (1, 1)]` over a universe
of size 3. -/
theorem generate_y_vector_normalizes_witness :
    (([((0 : ℕ), (2 : ℕ)), (1, 1)] : List (ℕ × ℕ)) ≠ [] ∧
      (([((0 : ℕ), (2 : ℕ)), (1, 1)] : List (ℕ × ℕ)).map Prod.fst).Nodup ∧
      (∀ p ∈ ([((0 : ℕ), (2 : ℕ)), (1, 1)] : List (ℕ × ℕ)), p.1 < 3) ∧
      (∀ p ∈ ([((0 : ℕ), (2 : ℕ)), (1, 1)] : List (ℕ × ℕ)), 0 < p.2)) ∧
    ((generate_y_vector [(0, 2), (1, 1)] 3).sum = 1 ∧
      (generate_y_vector [(0, 2), (1, 1)] 3).length = 3) :=
  ⟨by decide,
    (generate_y_vector_normalizes [(0, 2), (1, 1)] 3 (by decide) (by decide)
      (by decide) (by decide)).2.2.2.1,
    (generate_y_vector_normalizes [(0, 2), (1, 1)] 3 (by decide) (by decide)
      (by decide) (by decide)).1⟩

/-- Outcome bucket assigned to one labeled pair by the branch chain of
`evaluate` in `spell_evaluation.py`. -/
inductive Bucket
  | top1
  | top2
  | top3
  | top10
  | failure
deriving DecidableEq

/-- Branch chain of `evaluate`: `top_5[0] == expected` (guarded by
`len > 0`), else position 1, else position 2, else
`len(top_5) > 2 and expected in top_5[:10]`, else a recorded failure. -/
def classify (top_5 : List String) (expected_result_name : String) : Bucket :=
  if top_5[0]? = some expected_result_name then .top1
  else if top_5[1]? = some expected_result_name then .top2
  else if top_5[2]? = some expected_result_name then .top3
  else if 2 < top_5.length ∧ expected_result_name ∈ top_5.take 10 then .top10
  else .failure

/-- Counters and failure log accumulated by `evaluate`. -/
structure EvalResult where
  top_1 : ℕ
  top_2 : ℕ
  top_3 : ℕ
  top_10 : ℕ
  failed : List (String × String)
deriving DecidableEq

/-- Step of `evaluate` from `spell_evaluation.py` for one labeled pair,
with the strategy call modelled as a function from the query to its ranked
name list and the id-to-name dict as a function. -/
def bucketStep (search : String → List String) (reverse_map : ℕ → String)
    (acc : EvalResult) (qp : String × ℕ) : EvalResult :=
  let expected_result_name := reverse_map qp.2
  let top_5 := search qp.1
  match classify top_5 expected_result_name with
  | .top1 => { acc with top_1 := acc.top_1 + 1 }
  | .top2 => { acc with top_2 := acc.top_2 + 1 }
  | .top3 => { acc with top_3 := acc.top_3 + 1 }
  | .top10 => { acc with top_10 := acc.top_10 + 1 }
  | .failure => { acc with failed := acc.failed ++ [(qp.1, expected_result_name)] }

/-- `evaluate` from `spell_evaluation.py`: replay every labeled pair
through the strategy, starting from zeroed counters and an empty failure
log.  The elapsed wall-clock time is not modelled. -/
def evaluate (search : String → List String) (reverse_map : ℕ → String)
    (query_pairs : List (String × ℕ)) : EvalResult :=
  query_pairs.foldl (bucketStep search reverse_map) ⟨0, 0, 0, 0, []⟩

/-- Total number of labeled pairs accounted for by an `EvalResult`. -/
def EvalResult.total (r : EvalResult) : ℕ :=
  r.top_1 + r.top_2 + r.top_3 + r.top_10 + r.failed.length

theorem foldl_bucketStep_total (search : String → List String)
    (reverse_map : ℕ → String) :
    ∀ (query_pairs : List (String × ℕ)) (acc : EvalResult),
      (query_pairs.foldl (bucketStep search reverse_map) acc).total =
        acc.total + query_pairs.length := by
  intro query_pairs
  induction query_pairs with
  | nil => intro acc; simp
  | cons qp t ih =>
    intro acc
    simp only [List.foldl_cons, List.length_cons]
    rw [ih]
    unfold bucketStep
    cases hc : classify (search qp.1) (reverse_map qp.2) <;>
      simp [hc, EvalResult.total, List.length_append] <;> omega

/-- C2: the five outcome buckets of `evaluate` are mutually exclusive and
exhaustive — the classifying branch chain assigns each labeled pair to
exactly one bucket, so `top_1 + top_2 + top_3 + top_10 + len(failed)`
equals the number of labeled pairs. -/
theorem evaluate_buckets_partition (search : String → List String)
    (reverse_map : ℕ → String) (query_pairs : List (String × ℕ)) :
    (evaluate search reverse_map query_pairs).top_1 +
      (evaluate search reverse_map query_pairs).top_2 +
      (evaluate search reverse_map query_pairs).top_3 +
      (evaluate search reverse_map query_pairs).top_10 +
      (evaluate search reverse_map query_pairs).failed.length =
      query_pairs.length := by
  have h := foldl_bucketStep_total search reverse_map query_pairs (EvalResult.mk 0 0 0 0 [])
  unfold EvalResult.total at h
  simpa [evaluate] using h

/-- Raw observation consumed by `map_data` in `preprocess.py`: a typed
query and the true result name. -/
structure RawObs where
  query : String
  result : String
deriving DecidableEq

/-- Observation after `map_data`: the result resolved to its full-index id
and, optionally, its restricted (SRD) id. -/
structure MappedObs where
  query : String
  result : ℕ
  srd_result : Option ℕ
deriving DecidableEq

/-- Fatal error raised by a full-index dict lookup miss
(`reverse_map[res]` raising `KeyError` in `map_data`). -/
inductive PreprocessError
  | unknownName (name : String)
deriving DecidableEq

/-- Mapping loop of `map_data` in `preprocess.py`: each entry's result is
resolved through `reverse_map` (a failing lookup is fatal) and through
`srd_reverse_map.get` (a failing lookup yields `None`).  The two dicts are
modelled as optional lookup functions. -/
def map_data : List RawObs → (String → Option ℕ) → (String → Option ℕ) →
    Except PreprocessError (List MappedObs)
  | [], _, _ => .ok []
  | e :: t, reverse_map, srd_reverse_map =>
    match reverse_map e.result with
    | none => .error (.unknownName e.result)
    | some i =>
      match map_data t reverse_map srd_reverse_map with
      | .error err => .error err
      | .ok rest => .ok (⟨e.query, i, srd_reverse_map e.result⟩ :: rest)

/-- Increment of the nested `defaultdict(Counter)`:
`queries[query][result] += 1`. -/
def bump (queries : String → ℕ → ℕ) (query : String) (result : ℕ) :
    String → ℕ → ℕ :=
  fun q i => if q = query ∧ i = result then queries q i + 1 else queries q i

/-- Per-entry step of `clean_dupes`: in restricted (`srd=True`) mode an
entry whose `srd_result` is `None` is skipped with `continue`. -/
def cleanStep (srd : Bool) (queries : String → ℕ → ℕ) (entry : MappedObs) :
    String → ℕ → ℕ :=
  if srd = false then
    bump queries entry.query entry.result
  else
    match entry.srd_result with
    | none => queries
    | some result => bump queries entry.query result

/-- `clean_dupes` from `preprocess.py`: aggregate observations into
per-query per-id counts, starting from an all-zero counter table. -/
def clean_dupes (data : List MappedObs) (srd : Bool) : String → ℕ → ℕ :=
  data.foldl (cleanStep srd) (fun _ _ => 0)

/-- Predicate deciding whether one observation contributes to the count of
id `i` for query `q` in the given mode. -/
def hits (srd : Bool) (q : String) (i : ℕ) (e : MappedObs) : Bool :=
  if srd = false then decide (e.query = q ∧ e.result = i)
  else decide (e.query = q ∧ e.srd_result = some i)

theorem cleanStep_false (queries : String → ℕ → ℕ) (e : MappedObs) :
    cleanStep false queries e = bump queries e.query e.result := rfl

theorem cleanStep_true (queries : String → ℕ → ℕ) (e : MappedObs) :
    cleanStep true queries e =
      (match e.srd_result with
       | none => queries
       | some result => bump queries e.query result) := rfl

theorem hits_false (q : String) (i : ℕ) (e : MappedObs) :
    hits false q i e = decide (e.query = q ∧ e.result = i) := rfl

theorem hits_true (q : String) (i : ℕ) (e : MappedObs) :
    hits true q i e = decide (e.query = q ∧ e.srd_result = some i) := rfl

theorem cleanStep_value (srd : Bool) (acc : String → ℕ → ℕ) (e : MappedObs)
    (q : String) (i : ℕ) :
    cleanStep srd acc e q i = acc q i + (if hits srd q i e then 1 else 0) := by
  cases srd with
  | false =>
    rw [cleanStep_false, hits_false]
    unfold bump
    by_cases hq : q = e.query ∧ i = e.result
    · rw [if_pos hq]
      have hq2 : e.query = q ∧ e.result = i := ⟨hq.1.symm, hq.2.symm⟩
      simp [hq2]
    · rw [if_neg hq]
      have hq2 : ¬ (e.query = q ∧ e.result = i) := fun hcon =>
        hq ⟨hcon.1.symm, hcon.2.symm⟩
      simp [hq2]
  | true =>
    cases hsr : e.srd_result with
    | none =>
      have hred : cleanStep true acc e = acc := by rw [cleanStep_true acc e, hsr]
      rw [hred, hits_true]
      simp [hsr]
    | some r =>
      have hred : cleanStep true acc e = bump acc e.query r := by
        rw [cleanStep_true acc e, hsr]
      rw [hred, hits_true]
      unfold bump
      by_cases hq : q = e.query ∧ i = r
      · rw [if_pos hq]
        have hq2 : e.query = q ∧ e.srd_result = some i := by
          rw [hsr, hq.1, hq.2]
          exact ⟨rfl, rfl⟩
        simp [hq2]
      · rw [if_neg hq]
        have hq2 : ¬ (e.query = q ∧ e.srd_result = some i) := by
          rw [hsr]
          intro hcon
          exact hq ⟨hcon.1.symm, (Option.some.inj hcon.2).symm⟩
        simp [hq2]

theorem clean_dupes_foldl_countP (srd : Bool) :
    ∀ (data : List MappedObs) (acc : String → ℕ → ℕ) (q : String) (i : ℕ),
      (data.foldl (cleanStep srd) acc) q i = acc q i + data.countP (hits srd q i) := by
  intro data
  induction data with
  | nil => intro acc q i; simp
  | cons e t ih =>
    intro acc q i
    simp only [List.foldl_cons, List.countP_cons]
    rw [ih, cleanStep_value]
    omega

theorem clean_dupes_eq_countP (data : List MappedObs) (srd : Bool)
    (q : String) (i : ℕ) :
    clean_dupes data srd q i = data.countP (hits srd q i) := by
  unfold clean_dupes
  rw [clean_dupes_foldl_countP srd data (fun _ _ => 0) q i]
  simp

/-- C8: aggregation is order-insensitive — permuting the observation list
leaves the per-query per-id counts of `clean_dupes` unchanged, in both the
full-catalog and restricted modes. -/
theorem clean_dupes_perm_invariant (data data' : List MappedObs) (srd : Bool)
    (h : data.Perm data') :
    clean_dupes data srd = clean_dupes data' srd := by
  funext q i
  rw [clean_dupes_eq_countP, clean_dupes_eq_countP, h.countP_eq]

/-- Witness for C8 on a two-element observation list and its swap. -/
theorem clean_dupes_perm_invariant_witness :
    clean_dupes [⟨"a", 0, none⟩, ⟨"b", 1, some 0⟩] true =
      clean_dupes [⟨"b", 1, some 0⟩, ⟨"a", 0, none⟩] true :=
  clean_dupes_perm_invariant _ _ true
    (List.Perm.swap (⟨"b", 1, some 0⟩ : MappedObs) ⟨"a", 0, none⟩ [])

theorem map_data_error_of_miss :
    ∀ (qs : List RawObs) (rm srm : String → Option ℕ),
      (∃ e ∈ qs, rm e.result = none) →
      ∃ n, map_data qs rm srm = .error (.unknownName n) := by
  intro qs
  induction qs with
  | nil =>
    intro rm srm h
    obtain ⟨e, he, _⟩ := h
    exact absurd he (List.not_mem_nil e)
  | cons e t ih =>
    intro rm srm h
    cases hrm : rm e.result with
    | none =>
      refine ⟨e.result, ?_⟩
      simp only [map_data, hrm]
    | some i =>
      obtain ⟨e', he', hmiss⟩ := h
      rcases List.mem_cons.mp he' with rfl | he't
      · rw [hrm] at hmiss; exact Option.noConfusion hmiss
      · obtain ⟨n, hn⟩ := ih rm srm ⟨e', he't, hmiss⟩
        refine ⟨n, ?_⟩
        simp only [map_data, hrm, hn]

theorem map_data_ok_of_hits :
    ∀ (qs : List RawObs) (rm srm : String → Option ℕ),
      (∀ e ∈ qs, (rm e.result).isSome) →
      ∃ m, map_data qs rm srm = .ok m := by
  intro qs
  induction qs with
  | nil => intro rm srm _; exact ⟨[], rfl⟩
  | cons e t ih =>
    intro rm srm h
    cases hrm : rm e.result with
    | none =>
      have := h e (List.mem_cons_self e t)
      rw [hrm] at this
      exact absurd this (by simp)
    | some i =>
      obtain ⟨m, hm⟩ := ih rm srm (fun e' he' => h e' (List.mem_cons_of_mem e he'))
      refine ⟨⟨e.query, i, srm e.result⟩ :: m, ?_⟩
      simp only [map_data, hrm, hm]

theorem clean_dupes_true_filter (m : List MappedObs) :
    clean_dupes m true =
      clean_dupes (m.filter fun e => e.srd_result.isSome) true := by
  funext q i
  rw [clean_dupes_eq_countP, clean_dupes_eq_countP, List.countP_filter]
  congr 1
  funext e
  rw [hits_true]
  cases hsr : e.srd_result with
  | none => simp [hsr]
  | some r => simp [hsr]

theorem map_data_ok_counts_independent :
    ∀ (qs : List RawObs) (rm srm srm' : String → Option ℕ)
      (m m' : List MappedObs),
      map_data qs rm srm = .ok m → map_data qs rm srm' = .ok m' →
      ∀ q i, m.countP (hits false q i) = m'.countP (hits false q i) := by
  intro qs
  induction qs with
  | nil =>
    intro rm srm srm' m m' h h' q i
    simp only [map_data] at h h'
    cases h; cases h'
    rfl
  | cons e t ih =>
    intro rm srm srm' m m' h h' q i
    cases hrm : rm e.result with
    | none =>
      simp only [map_data, hrm] at h
      exact Except.noConfusion h
    | some v =>
      simp only [map_data, hrm] at h h'
      cases hrec : map_data t rm srm with
      | error err => rw [hrec] at h; exact Except.noConfusion h
      | ok rest =>
        cases hrec' : map_data t rm srm' with
        | error err => rw [hrec'] at h'; exact Except.noConfusion h'
        | ok rest' =>
          rw [hrec] at h; rw [hrec'] at h'
          cases h; cases h'
          simp only [List.countP_cons]
          rw [ih rm srm srm' rest rest' hrec hrec' q i]
          simp [hits_false]

/-- C7: during aggregation a full-index lookup miss is fatal
(`UnknownNameError`): `map_data` aborts whenever some observation's
`true_name` is absent from the full reverse map, and succeeds whenever all
full lookups hit, no matter how many restricted lookups miss; an
observation with no restricted id is silently skipped — the restricted
counts equal the counts over the observations that do carry a restricted
id — and the full-catalog counts do not depend on the restricted index at
all. -/
theorem aggregation_error_asymmetry (qs : List RawObs)
    (rm srm srm' : String → Option ℕ) :
    ((∃ e ∈ qs, rm e.result = none) →
      ∃ n, map_data qs rm srm = .error (.unknownName n)) ∧
    ((∀ e ∈ qs, (rm e.result).isSome) → ∃ m, map_data qs rm srm = .ok m) ∧
    (∀ m, map_data qs rm srm = .ok m →
      clean_dupes m true = clean_dupes (m.filter fun e => e.srd_result.isSome) true) ∧
    (∀ m m', map_data qs rm srm = .ok m → map_data qs rm srm' = .ok m' →
      clean_dupes m false = clean_dupes m' false) := by
  refine ⟨map_data_error_of_miss qs rm srm, map_data_ok_of_hits qs rm srm, ?_, ?_⟩
  · intro m _
    exact clean_dupes_true_filter m
  · intro m m' h h'
    funext q i
    rw [clean_dupes_eq_countP, clean_dupes_eq_countP]
    exact map_data_ok_counts_independent qs rm srm srm' m m' h h' q i

/-- Witness for C7: a miss in the full map aborts, a full hit with a
restricted miss succeeds, and the concrete mapped lists satisfy both count
equalities. -/
theorem aggregation_error_asymmetry_witness :
    (∃ n, map_data [⟨"q", "A"⟩] (fun _ => none) (fun _ => none) =
      .error (.unknownName n)) ∧
    (∃ m, map_data [⟨"q", "A"⟩] (fun _ => some 0) (fun _ => none) = .ok m) ∧
    (clean_dupes [⟨"q", 0, none⟩] true =
      clean_dupes (([⟨"q", 0, none⟩] : List MappedObs).filter
        fun e => e.srd_result.isSome) true) ∧
    (clean_dupes [⟨"q", 0, none⟩] false = clean_dupes [⟨"q", 0, some 5⟩] false) := by
  have h := aggregation_error_asymmetry [⟨"q", "A"⟩] (fun _ => none)
    (fun _ => none) (fun _ => none)
  have h2 := aggregation_error_asymmetry [⟨"q", "A"⟩] (fun _ => some 0)
    (fun _ => none) (fun _ => some 5)
  refine ⟨h.1 ⟨⟨"q", "A"⟩, List.mem_singleton.mpr rfl, rfl⟩, ?_, ?_, ?_⟩
  · exact h2.2.1 (by intro e he; rfl)
  · exact h2.2.2.1 [⟨"q", 0, none⟩] rfl
  · exact h2.2.2.2 [⟨"q", 0, none⟩] [⟨"q", 0, some 5⟩] rfl rfl

/-- Stable descending insertion used to model Python
`sorted(..., key=lambda e: e[1], reverse=True)`: walk past the entries of
strictly higher confidence and insert before the first entry of equal or
lower confidence, so earlier input entries stay ahead of equal-confidence
later ones, exactly as Python's stable sort orders them. -/
def insertDesc {α : Type} (p : α × ℚ) : List (α × ℚ) → List (α × ℚ)
  | [] => [p]
  | q :: t => if q.2 ≤ p.2 then p :: q :: t else q :: insertDesc p t

/-- Python `sorted(..., key=lambda e: e[1], reverse=True)` on (item,
confidence) pairs: a stable sort putting higher confidence first.  Any
stable sort returns the same list, so the choice of insertion sort is
immaterial. -/
def sortByConfDesc {α : Type} (l : List (α × ℚ)) : List (α × ℚ) :=
  l.foldr insertDesc []

theorem insertDesc_perm {α : Type} (p : α × ℚ) :
    ∀ l : List (α × ℚ), (insertDesc p l).Perm (p :: l) := by
  intro l
  induction l with
  | nil => simp [insertDesc]
  | cons q t ih =>
    rw [insertDesc]
    by_cases hq : q.2 ≤ p.2
    · rw [if_pos hq]
    · rw [if_neg hq]
      exact (ih.cons q).trans (List.Perm.swap p q t)

theorem sortByConfDesc_perm {α : Type} (l : List (α × ℚ)) :
    (sortByConfDesc l).Perm l := by
  induction l with
  | nil => simp [sortByConfDesc]
  | cons a t ih =>
    have : sortByConfDesc (a :: t) = insertDesc a (sortByConfDesc t) := rfl
    rw [this]
    exact (insertDesc_perm a _).trans (ih.cons a)

theorem insertDesc_pairwise {α : Type} (p : α × ℚ) :
    ∀ l : List (α × ℚ), l.Pairwise (fun a b => b.2 ≤ a.2) →
      (insertDesc p l).Pairwise (fun a b => b.2 ≤ a.2) := by
  intro l
  induction l with
  | nil => intro _; simp [insertDesc]
  | cons q t ih =>
    intro hpair
    rw [List.pairwise_cons] at hpair
    rw [insertDesc]
    by_cases hq : q.2 ≤ p.2
    · rw [if_pos hq]
      rw [List.pairwise_cons]
      refine ⟨?_, List.pairwise_cons.mpr hpair⟩
      intro x hx
      rcases List.mem_cons.mp hx with rfl | hx'
      · exact hq
      · exact le_trans (hpair.1 x hx') hq
    · rw [if_neg hq]
      rw [List.pairwise_cons]
      refine ⟨?_, ih hpair.2⟩
      intro x hx
      have hx2 := (insertDesc_perm p t).subset hx
      rcases List.mem_cons.mp hx2 with rfl | hx'
      · exact le_of_not_le hq
      · exact hpair.1 x hx'

theorem sortByConfDesc_sorted {α : Type} (l : List (α × ℚ)) :
    (sortByConfDesc l).Pairwise (fun a b => b.2 ≤ a.2) := by
  induction l with
  | nil => simp [sortByConfDesc]
  | cons a t ih =>
    have : sortByConfDesc (a :: t) = insertDesc a (sortByConfDesc t) := rfl
    rw [this]
    exact insertDesc_pairwise a _ ih

/-- Deduplication loop of `mixed_model` (`if r[0] not in results`): walk
the sorted list, keeping a pair only when its name has not been seen. -/
def dedupeAux {α : Type} [DecidableEq α] (seen : List α) :
    List (α × ℚ) → List (α × ℚ)
  | [] => []
  | r :: t =>
    if r.1 ∈ seen then dedupeAux seen t
    else r :: dedupeAux (r.1 :: seen) t

theorem dedupeAux_sublist {α : Type} [DecidableEq α] :
    ∀ (l : List (α × ℚ)) (seen : List α), (dedupeAux seen l).Sublist l := by
  intro l
  induction l with
  | nil => intro seen; simp [dedupeAux]
  | cons r t ih =>
    intro seen
    rw [dedupeAux]
    by_cases hr : r.1 ∈ seen
    · rw [if_pos hr]
      exact (ih seen).cons r
    · rw [if_neg hr]
      exact (ih (r.1 :: seen)).cons₂ r

theorem dedupeAux_find? {α : Type} [DecidableEq α] :
    ∀ (l : List (α × ℚ)) (seen : List α) (p : α × ℚ), p ∈ dedupeAux seen l →
      p.1 ∉ seen ∧ l.find? (fun q => decide (q.1 = p.1)) = some p := by
  intro l
  induction l with
  | nil => intro seen p hp; simp [dedupeAux] at hp
  | cons r t ih =>
    intro seen p hp
    rw [dedupeAux] at hp
    by_cases hr : r.1 ∈ seen
    · rw [if_pos hr] at hp
      obtain ⟨hns, hfind⟩ := ih seen p hp
      have hne : r.1 ≠ p.1 := fun hcon => hns (hcon ▸ hr)
      refine ⟨hns, ?_⟩
      rw [List.find?_cons_of_neg _ (by simpa using hne), hfind]
    · rw [if_neg hr] at hp
      rcases List.mem_cons.mp hp with rfl | hp'
      · refine ⟨hr, ?_⟩
        rw [List.find?_cons_of_pos _ (by simp)]
      · obtain ⟨hns, hfind⟩ := ih (r.1 :: seen) p hp'
        have hne : r.1 ≠ p.1 := fun hcon => hns (hcon ▸ List.mem_cons_self r.1 seen)
        refine ⟨fun hcon => hns (List.mem_cons_of_mem r.1 hcon), ?_⟩
        rw [List.find?_cons_of_neg _ (by simpa using hne), hfind]

theorem dedupeAux_names_nodup {α : Type} [DecidableEq α] :
    ∀ (l : List (α × ℚ)) (seen : List α),
      ((dedupeAux seen l).map Prod.fst).Nodup := by
  intro l
  induction l with
  | nil => intro seen; simp [dedupeAux]
  | cons r t ih =>
    intro seen
    rw [dedupeAux]
    by_cases hr : r.1 ∈ seen
    · rw [if_pos hr]; exact ih seen
    · rw [if_neg hr]
      rw [List.map_cons, List.nodup_cons]
      refine ⟨?_, ih (r.1 :: seen)⟩
      intro hcon
      obtain ⟨p, hp, hp1⟩ := List.mem_map.mp hcon
      obtain ⟨hns, _⟩ := dedupeAux_find? t (r.1 :: seen) p hp
      exact hns (hp1 ▸ List.mem_cons_self r.1 seen)

/-- Fuzzy normalization step of `mixed_model`: divide every fuzzy score by
the sum of all fuzzy scores, floored at `0.001` to avoid division by
zero. -/
def normalizeFuzzy (fuzzy_results : List (String × ℚ)) : List (String × ℚ) :=
  let fuzzy_sum := max ((fuzzy_results.map Prod.snd).sum) (1 / 1000 : ℚ)
  fuzzy_results.map (fun r => (r.1, r.2 / fuzzy_sum))

/-- Combined candidate list of `mixed_model` (`sorted_weighted`): the
normalized fuzzy candidates concatenated with the scorer-weighted
candidates, sorted by confidence descending. -/
def combinedSorted (fuzzy_matches_and_confidences net_weighted : List (String × ℚ)) :
    List (String × ℚ) :=
  sortByConfDesc (fuzzy_matches_and_confidences ++ net_weighted)

/-- Ensemble merge of `mixed_model`: sort the combined list by confidence
descending and deduplicate by name, keeping the first occurrence together
with its confidence. -/
def mixedMerge (fuzzy_results net_weighted : List (String × ℚ)) : List (String × ℚ) :=
  dedupeAux [] (combinedSorted (normalizeFuzzy fuzzy_results) net_weighted)

/-- C1: the ensemble merge of `mixed_model` emits no duplicate names,
every emitted name comes from the fuzzy or the scorer candidate list, the
emitted confidences are non-increasing, and every emitted pair is the
first (highest-confidence) occurrence of its name in the combined sorted
list. -/
theorem mixed_model_merge_properties (fuzzy_results net_weighted : List (String × ℚ)) :
    ((mixedMerge fuzzy_results net_weighted).map Prod.fst).Nodup ∧
    (∀ p ∈ mixedMerge fuzzy_results net_weighted,
      p.1 ∈ fuzzy_results.map Prod.fst ∨ p.1 ∈ net_weighted.map Prod.fst) ∧
    (mixedMerge fuzzy_results net_weighted).Pairwise (fun a b => b.2 ≤ a.2) ∧
    (∀ p ∈ mixedMerge fuzzy_results net_weighted,
      (combinedSorted (normalizeFuzzy fuzzy_results) net_weighted).find?
        (fun q => decide (q.1 = p.1)) = some p) := by
  refine ⟨dedupeAux_names_nodup _ [], ?_, ?_, ?_⟩
  · intro p hp
    have hmem : p ∈ combinedSorted (normalizeFuzzy fuzzy_results) net_weighted :=
      (dedupeAux_sublist _ []).subset hp
    have hmem2 : p ∈ normalizeFuzzy fuzzy_results ++ net_weighted :=
      (sortByConfDesc_perm _).subset hmem
    rcases List.mem_append.mp hmem2 with hf | hn
    · left
      obtain ⟨r, hr, hrp⟩ := List.mem_map.mp hf
      have : p.1 = r.1 := by rw [← hrp]
      rw [this]
      exact List.mem_map_of_mem Prod.fst hr
    · right
      exact List.mem_map_of_mem Prod.fst hn
  · exact (sortByConfDesc_sorted _).sublist (dedupeAux_sublist _ [])
  · intro p hp
    exact (dedupeAux_find? _ [] p hp).2

/-- Indexing loop of the `pure_model` list comprehension
(`[choices[r[0]]['name'] for r in weighted[:10]]`): `none` models Python's
`IndexError` when some ranked index is outside the catalog. -/
def mapChoices (choices : List String) : List (ℕ × ℚ) → Option (List String)
  | [] => some []
  | r :: t =>
    match choices[r.1]? with
    | none => none
    | some name => (mapChoices choices t).map (fun rest => name :: rest)

/-- `pure_model` from `spell_evaluation.py` with the scorer's prediction
vector supplied as input: enumerate the prediction, sort by weight
descending, keep the first 10, and map each index to its catalog name.
There is no size check between `prediction` and `choices`. -/
def pure_model (choices : List String) (prediction : List ℚ) : Option (List String) :=
  let indexed := prediction.enum
  let weighted := sortByConfDesc indexed
  mapChoices choices (weighted.take 10)

/-- Weighted indexing loop of `mixed_model`
(`net_weighted = [(choices[r[0]]['name'], r[1]) for r in weighted]`),
over the whole weighted list, not just the first 10. -/
def mapChoicesWeighted (choices : List String) :
    List (ℕ × ℚ) → Option (List (String × ℚ))
  | [] => some []
  | r :: t =>
    match choices[r.1]? with
    | none => none
    | some name => (mapChoicesWeighted choices t).map (fun rest => (name, r.2) :: rest)

/-- The full scorer-weighted candidate list built by `mixed_model`. -/
def net_weighted (choices : List String) (prediction : List ℚ) :
    Option (List (String × ℚ)) :=
  mapChoicesWeighted choices (sortByConfDesc prediction.enum)

/-- `mixed_model` from `spell_evaluation.py` with the fuzzy extraction
results and the scorer's prediction vector supplied as inputs. -/
def mixed_model (choices : List String) (fuzzy_results : List (String × ℚ))
    (prediction : List ℚ) : Option (List (String × ℚ)) :=
  match net_weighted choices prediction with
  | none => none
  | some net => some (mixedMerge fuzzy_results net)

theorem mapChoices_ok (choices : List String) :
    ∀ l : List (ℕ × ℚ), (∀ r ∈ l, r.1 < choices.length) →
      ∃ out, mapChoices choices l = some out ∧ out.length = l.length ∧
        ∀ n ∈ out, n ∈ choices := by
  intro l
  induction l with
  | nil => intro _; exact ⟨[], rfl, rfl, fun n hn => absurd hn (List.not_mem_nil n)⟩
  | cons r t ih =>
    intro h
    obtain ⟨out, hout, hlen, hmem⟩ := ih (fun r' hr' => h r' (List.mem_cons_of_mem r hr'))
    have hr : r.1 < choices.length := h r (List.mem_cons_self r t)
    refine ⟨choices[r.1] :: out, ?_, by simp [hlen], ?_⟩
    · simp only [mapChoices, List.getElem?_eq_getElem hr, hout, Option.map_some']
    · intro n hn
      rcases List.mem_cons.mp hn with rfl | hn'
      · exact List.getElem_mem hr
      · exact hmem n hn'

theorem mapChoicesWeighted_ok (choices : List String) :
    ∀ l : List (ℕ × ℚ), (∀ r ∈ l, r.1 < choices.length) →
      ∃ out, mapChoicesWeighted choices l = some out ∧ out.length = l.length := by
  intro l
  induction l with
  | nil => intro _; exact ⟨[], rfl, rfl⟩
  | cons r t ih =>
    intro h
    obtain ⟨out, hout, hlen⟩ := ih (fun r' hr' => h r' (List.mem_cons_of_mem r hr'))
    have hr : r.1 < choices.length := h r (List.mem_cons_self r t)
    refine ⟨(choices[r.1], r.2) :: out, ?_, by simp [hlen]⟩
    simp only [mapChoicesWeighted, List.getElem?_eq_getElem hr, hout, Option.map_some']

theorem mem_enum_fst_lt {α : Type} (l : List α) (r : ℕ × α) (h : r ∈ l.enum) :
    r.1 < l.length := by
  rw [List.mem_enum_iff_get?] at h
  exact List.get?_eq_some.mp h |>.1

theorem sortByConfDesc_enum_indices_lt (prediction : List ℚ) :
    ∀ r ∈ sortByConfDesc prediction.enum, r.1 < prediction.length := by
  intro r hr
  exact mem_enum_fst_lt prediction r ((sortByConfDesc_perm _).subset hr)

theorem pure_model_ok_of_le (choices : List String) (prediction : List ℚ)
    (h : prediction.length ≤ choices.length) :
    ∃ l, pure_model choices prediction = some l ∧
      l.length = min 10 prediction.length ∧ ∀ n ∈ l, n ∈ choices := by
  have hidx : ∀ r ∈ (sortByConfDesc prediction.enum).take 10, r.1 < choices.length := by
    intro r hr
    have := sortByConfDesc_enum_indices_lt prediction r (List.mem_of_mem_take hr)
    omega
  obtain ⟨out, hout, hlen, hmem⟩ := mapChoices_ok choices _ hidx
  refine ⟨out, hout, ?_, hmem⟩
  rw [hlen]
  have hslen : (sortByConfDesc prediction.enum).length = prediction.length := by
    rw [(sortByConfDesc_perm prediction.enum).length_eq]
    simp
  simp [List.length_take, hslen]

/-- C4 holds only in amended form: `pure_model` performs no catalog-size
check at all.  When the prediction vector is shorter than the catalog the
call silently succeeds and ranks only the predicted indices (silent
truncation); no `CatalogMismatchError` is ever produced, and a failure
(Python `IndexError`) can occur only when the prediction is longer than
the catalog and an out-of-range index is ranked among the first 10. -/
theorem pure_model_truncates_silently (choices : List String) (prediction : List ℚ)
    (h : prediction.length ≤ choices.length) :
    ∃ l, pure_model choices prediction = some l ∧
      l.length = min 10 prediction.length ∧ ∀ n ∈ l, n ∈ choices :=
  pure_model_ok_of_le choices prediction h

/-- Counterexample to C4 as stated: a scorer emitting 1 weight against a
2-entry catalog does not abort — `pure_model` returns a ranking built by
silently truncating to the predicted indices. -/
theorem pure_model_size_mismatch_no_error :
    (["A", "B"] : List String).length ≠ ([(1 : ℚ) / 2] : List ℚ).length ∧
    pure_model ["A", "B"] [(1 : ℚ) / 2] = some ["A"] := by
  refine ⟨by decide, ?_⟩
  decide

/-- Witness for the amended C4 at a 1-weight prediction against a 2-entry
catalog. -/
theorem pure_model_truncates_silently_witness :
    ([(1 : ℚ) / 3] : List ℚ).length ≤ (["C", "D"] : List String).length ∧
    ∃ l, pure_model ["C", "D"] [(1 : ℚ) / 3] = some l ∧
      l.length = min 10 ([(1 : ℚ) / 3] : List ℚ).length ∧
      ∀ n ∈ l, n ∈ (["C", "D"] : List String) :=
  ⟨by decide, pure_model_truncates_silently ["C", "D"] [(1 : ℚ) / 3] (by decide)⟩

/-- C10: `pure_model` keeps at most 10 candidates — exactly the names of
the first 10 entries of the weight-sorted list, whose weights dominate
every dropped entry — while `mixed_model` builds its merge from the full,
untruncated scorer-weighted list, one weighted candidate per prediction
entry. -/
theorem pure_model_top10_mixed_untruncated (choices : List String)
    (prediction : List ℚ) (fuzzy_results : List (String × ℚ))
    (h : prediction.length ≤ choices.length) :
    (∃ l, pure_model choices prediction = some l ∧
      l.length = min 10 prediction.length ∧ (∀ n ∈ l, n ∈ choices)) ∧
    (∀ p ∈ (sortByConfDesc prediction.enum).take 10,
      ∀ q ∈ (sortByConfDesc prediction.enum).drop 10, q.2 ≤ p.2) ∧
    (∃ net, net_weighted choices prediction = some net ∧
      net.length = prediction.length ∧
      mixed_model choices fuzzy_results prediction = some (mixedMerge fuzzy_results net)) := by
  refine ⟨pure_model_ok_of_le choices prediction h, ?_, ?_⟩
  · have hsorted := sortByConfDesc_sorted (prediction.enum)
    have hsplit := List.take_append_drop 10 (sortByConfDesc prediction.enum)
    rw [← hsplit] at hsorted
    have := (List.pairwise_append.mp hsorted).2.2
    intro p hp q hq
    exact this p hp q hq
  · have hidx : ∀ r ∈ sortByConfDesc prediction.enum, r.1 < choices.length := by
      intro r hr
      have := sortByConfDesc_enum_indices_lt prediction r hr
      omega
    obtain ⟨net, hnet, hlen⟩ := mapChoicesWeighted_ok choices _ hidx
    refine ⟨net, hnet, ?_, ?_⟩
    · rw [hlen]
      rw [(sortByConfDesc_perm prediction.enum).length_eq]
      simp
    · unfold mixed_model
      rw [show net_weighted choices prediction = some net from hnet]

/-- Witness for C10 at a 2-entry catalog and a 2-weight prediction. -/
theorem pure_model_top10_mixed_untruncated_witness :
    ([(1 : ℚ) / 2, (1 : ℚ) / 3] : List ℚ).length ≤ (["A", "B"] : List String).length ∧
    (∃ net, net_weighted ["A", "B"] [(1 : ℚ) / 2, (1 : ℚ) / 3] = some net ∧
      net.length = ([(1 : ℚ) / 2, (1 : ℚ) / 3] : List ℚ).length ∧
      mixed_model ["A", "B"] [] [(1 : ℚ) / 2, (1 : ℚ) / 3] =
        some (mixedMerge [] net)) :=
  ⟨by decide,
    (pure_model_top10_mixed_untruncated ["A", "B"] [(1 : ℚ) / 2, (1 : ℚ) / 3] []
      (by decide)).2.2⟩

/-- Witness for C1: a concrete merged pair comes from the scorer candidate
list. -/
theorem mixed_model_merge_properties_witness :
    (("B", (0 : ℚ)) ∈ mixedMerge [] [("B", (0 : ℚ))]) ∧
    (("B", (0 : ℚ)).1 ∈ ([] : List (String × ℚ)).map Prod.fst ∨
      ("B", (0 : ℚ)).1 ∈ [("B", (0 : ℚ))].map Prod.fst) :=
  ⟨by decide,
    (mixed_model_merge_properties [] [("B", (0 : ℚ))]).2.1 ("B", (0 : ℚ)) (by decide)⟩

/-- Python `str.lower()` on a list of characters. -/
def pyLower (s : List Char) : List Char := s.map Char.toLower

/-- Bool test that the first list is a prefix of the second, via `==`. -/
def listStartsWith : List Char → List Char → Bool
  | [], _ => true
  | _ :: _, [] => false
  | a :: as, b :: bs => a == b && listStartsWith as bs

/-- Python substring containment `needle in hay`. -/
def substringIn (needle hay : List Char) : Bool :=
  hay.tails.any (fun t => listStartsWith needle t)

/-- `full_matches` of `naive_partial_match`: catalog names equal to the
query, case-insensitively, in catalog order. -/
def full_matches (choices : List (List Char)) (query : List Char) : List (List Char) :=
  choices.filter (fun s => decide (pyLower s = pyLower query))

/-- The substring-match comprehension of `naive_partial_match`: names
containing the query case-insensitively and not already full matches. -/
def partialMatches (choices : List (List Char)) (query : List Char) : List (List Char) :=
  choices.filter (fun s =>
    substringIn (pyLower query) (pyLower s) && decide (s ∉ full_matches choices query))

/-- `naive_partial_match` from `spell_evaluation.py` without weights:
exact matches first, then substring matches. -/
def naivePartialMatch (choices : List (List Char)) (query : List Char) : List (List Char) :=
  full_matches choices query ++ partialMatches choices query

/-- `naive_partial_match` with `return_weights=True`: weight each result
by `len(query)/len(r)` and sort by weight descending (Python's stable
sort). -/
def naivePartialMatchWeighted (choices : List (List Char)) (query : List Char) :
    List (List Char × ℚ) :=
  let results := naivePartialMatch choices query
  let weights := results.map (fun r => (query.length : ℚ) / (r.length : ℚ))
  sortByConfDesc (results.zip weights)

theorem zip_map_snd {α : Type} (f : α → ℚ) :
    ∀ (l : List α) (p : α × ℚ), p ∈ l.zip (l.map f) → p.2 = f p.1 := by
  intro l
  induction l with
  | nil => intro p hp; simp at hp
  | cons a t ih =>
    intro p hp
    rw [List.map_cons, List.zip_cons_cons] at hp
    rcases List.mem_cons.mp hp with rfl | hp'
    · rfl
    · exact ih p hp'

/-- Counterexample to C3 as stated: on catalog `["Fireballs", "Fired"]`
and query `"fire"` the unweighted result keeps catalog order, but the
weighted result reorders the substring group by weight
(`4/5 > 4/9`), so the weighted output does not preserve catalog order
within the substring group. -/
theorem naivePartialMatch_weighted_reorders :
    naivePartialMatch ["Fireballs".toList, "Fired".toList] "fire".toList =
      ["Fireballs".toList, "Fired".toList] ∧
    (naivePartialMatchWeighted ["Fireballs".toList, "Fired".toList]
        "fire".toList).map Prod.fst =
      ["Fired".toList, "Fireballs".toList] := by
  have hres : naivePartialMatch ["Fireballs".toList, "Fired".toList] "fire".toList =
      ["Fireballs".toList, "Fired".toList] := by decide
  have hcmp : ¬ ((("fire".toList.length : ℚ) / ("Fired".toList.length : ℚ)) ≤
      (("fire".toList.length : ℚ) / ("Fireballs".toList.length : ℚ))) := by
    have h1 : "fire".toList.length = 4 := by decide
    have h2 : "Fired".toList.length = 5 := by decide
    have h3 : "Fireballs".toList.length = 9 := by decide
    rw [h1, h2, h3]
    norm_num
  refine ⟨hres, ?_⟩
  have hwdef : naivePartialMatchWeighted ["Fireballs".toList, "Fired".toList]
      "fire".toList =
      sortByConfDesc
        ((naivePartialMatch ["Fireballs".toList, "Fired".toList] "fire".toList).zip
          ((naivePartialMatch ["Fireballs".toList, "Fired".toList] "fire".toList).map
            (fun r => ("fire".toList.length : ℚ) / (r.length : ℚ)))) := rfl
  rw [hwdef, hres]
  simp only [List.map_cons, List.map_nil, List.zip_cons_cons, List.zip_nil_right,
    sortByConfDesc, List.foldr_cons, List.foldr_nil, insertDesc, hcmp, if_false]

/-- C3 amended: the unweighted substring strategy returns exact
case-insensitive matches first and substring matches second, each group a
catalog-order filter of the catalog, with no duplicates when catalog names
are distinct; the weighted variant returns the same candidates, each
carrying confidence `len(query)/len(name)`, but sorted by confidence
non-increasing (not by catalog order within each group). -/
theorem naivePartialMatch_properties (choices : List (List Char)) (query : List Char)
    (hnd : choices.Nodup) :
    naivePartialMatch choices query =
      full_matches choices query ++ partialMatches choices query ∧
    (naivePartialMatch choices query).Nodup ∧
    (∀ n ∈ naivePartialMatch choices query, n ∈ choices) ∧
    ((naivePartialMatchWeighted choices query).map Prod.fst).Perm
      (naivePartialMatch choices query) ∧
    (naivePartialMatchWeighted choices query).Pairwise (fun a b => b.2 ≤ a.2) ∧
    (∀ p ∈ naivePartialMatchWeighted choices query,
      p.2 = (query.length : ℚ) / (p.1.length : ℚ)) := by
  have hdisj : (full_matches choices query).Disjoint (partialMatches choices query) := by
    intro a haf hap
    have hcond := (List.mem_filter.mp hap).2
    rw [Bool.and_eq_true] at hcond
    exact (of_decide_eq_true hcond.2) haf
  have hzip : ((naivePartialMatch choices query).zip
      ((naivePartialMatch choices query).map
        (fun r => (query.length : ℚ) / (r.length : ℚ)))).map Prod.fst =
      naivePartialMatch choices query :=
    List.map_fst_zip _ _ (by simp)
  refine ⟨rfl, ?_, ?_, ?_, sortByConfDesc_sorted _, ?_⟩
  · exact (hnd.filter _).append (hnd.filter _) hdisj
  · intro n hn
    rcases List.mem_append.mp hn with hf | hp
    · exact (List.mem_filter.mp hf).1
    · exact (List.mem_filter.mp hp).1
  · have hperm := (sortByConfDesc_perm ((naivePartialMatch choices query).zip
      ((naivePartialMatch choices query).map
        (fun r => (query.length : ℚ) / (r.length : ℚ))))).map Prod.fst
    rw [hzip] at hperm
    exact hperm
  · intro p hp
    have hp2 := (sortByConfDesc_perm _).subset hp
    exact zip_map_snd _ _ p hp2

/-- Witness for the amended C3 at the spec's scenario catalog and query
`"fire"`. -/
theorem naivePartialMatch_properties_witness :
    (["Fireball".toList, "Fire Bolt".toList, "Fire Storm".toList] :
      List (List Char)).Nodup ∧
    (naivePartialMatch ["Fireball".toList, "Fire Bolt".toList, "Fire Storm".toList]
      "fire".toList).Nodup :=
  ⟨by decide,
    (naivePartialMatch_properties
      ["Fireball".toList, "Fire Bolt".toList, "Fire Storm".toList]
      "fire".toList (by decide)).2.1⟩

end AvraeSearch
